import Mathlib

/-!
Verification of the Wordlist-Merger program (src/Wordlist Merger/Wordlist Merger.cpp).

The development shallowly embeds the three program components:
- `wildcardMatch` — the greedy-with-backtrack glob matcher (source lines 13-39);
- `expandFilePaths` — pattern expansion over an abstract filesystem (lines 41-85);
- `weaveMerge` / `mergeLoop` — the round-robin weave-merge with hash-based
  deduplication (lines 87-151), with `std::hash<string>` kept abstract as a
  parameter `hash : α → Nat`;
- `parseArgsLoop` / `mainModel` — the argument loop and control flow of `main`
  (lines 153-222).

Files are modelled as their byte contents (`List Char`); `linesOf` reproduces the
`std::getline` loop semantics (a final line without a terminating newline is still
produced).  Machine hashing is abstract, so deduplication is stated at the level
of hash values, matching the source's accepted hash-collision approximation.
-/

/-! ## Wildcard matcher (source lines 13-39) -/

/-- The trailing loop of `wildcardMatch`:
`while (pIdx < pattern.length() && pattern[pIdx] == '*') pIdx++;`. -/
def skipStars (pattern : List Char) (pIdx : Nat) : Nat :=
  if h : pIdx < pattern.length ∧ pattern.getD pIdx ' ' = '*' then skipStars pattern (pIdx + 1)
  else pIdx
termination_by pattern.length - pIdx
decreasing_by omega

/-- The main `while (tIdx < text.length())` loop of `wildcardMatch`.
`starIdx = none` models `starIdx == string::npos`.  The extra argument `hinv`
records the loop invariant `matchIdx ≤ tIdx`, needed for termination only. -/
def wmLoop (text pattern : List Char) (tIdx pIdx : Nat) (starIdx : Option Nat) (matchIdx : Nat)
    (hinv : matchIdx ≤ tIdx) : Bool :=
  if ht : tIdx < text.length then
    if hp : pIdx < pattern.length ∧
        (pattern.getD pIdx ' ' = '?' ∨ pattern.getD pIdx ' ' = text.getD tIdx ' ') then
      wmLoop text pattern (tIdx + 1) (pIdx + 1) starIdx matchIdx (Nat.le_succ_of_le hinv)
    else if hs : pIdx < pattern.length ∧ pattern.getD pIdx ' ' = '*' then
      wmLoop text pattern tIdx (pIdx + 1) (some pIdx) tIdx (Nat.le_refl tIdx)
    else
      match starIdx with
      | some si => wmLoop text pattern (matchIdx + 1) (si + 1) (some si) (matchIdx + 1)
          (Nat.le_refl (matchIdx + 1))
      | none => false
  else skipStars pattern pIdx == pattern.length
termination_by ((text.length - matchIdx) * (pattern.length + 1) + (pattern.length - pIdx))
decreasing_by
· omega
· rcases Nat.lt_or_ge matchIdx tIdx with hlt | hge
  · have h1 : text.length - tIdx + 1 ≤ text.length - matchIdx := by omega
    have h2 : (text.length - tIdx + 1) * (pattern.length + 1) ≤
        (text.length - matchIdx) * (pattern.length + 1) := Nat.mul_le_mul_right _ h1
    have h3 : (text.length - tIdx + 1) * (pattern.length + 1) =
        (text.length - tIdx) * (pattern.length + 1) + (pattern.length + 1) :=
      Nat.succ_mul _ _
    omega
  · have heq : matchIdx = tIdx := Nat.le_antisymm hinv hge
    subst heq
    omega
· have h1 : text.length - matchIdx = (text.length - (matchIdx + 1)) + 1 := by omega
  have h3 : (text.length - matchIdx) * (pattern.length + 1) =
      (text.length - (matchIdx + 1)) * (pattern.length + 1) + (pattern.length + 1) := by
    rw [h1]; exact Nat.succ_mul _ _
  omega

/-- `static bool wildcardMatch(const string& text, const string& pattern)`. -/
def wildcardMatch (text pattern : String) : Bool :=
  wmLoop text.data pattern.data 0 0 none 0 (Nat.le_refl 0)

/-! ## Weave-merge with deduplication (source lines 87-151)

The merge state: `seen` models the `unordered_set<size_t> written` (a list of
hash values, queried by membership), `out` the sequence of lines written to the
output stream. -/

structure MState (α : Type) where
  seen : List Nat
  out : List α
deriving DecidableEq, Repr

/-- Processing of one successfully read line (source lines 129-140):
`size_t hash = hasher(line); if (written.insert(hash).second) out << line << '\n';`. -/
def stepLine {α : Type} (hash : α → Nat) (st : MState α) (l : α) : MState α :=
  if hash l ∈ st.seen then st
  else ⟨hash l :: st.seen, st.out ++ [l]⟩

/-- One round of the `for (ifstream& f : files)` loop (source lines 126-142).
Each open file is modelled by its queue of unread lines; an exhausted stream is
an empty queue.  Returns the updated state, the updated queues (in place), and
the round's `anyAlive` flag (true iff some `getline` succeeded). -/
def runRound {α : Type} (hash : α → Nat) : MState α → List (List α) → MState α × List (List α) × Bool
  | st, [] => (st, [], false)
  | st, [] :: qs =>
      ((runRound hash st qs).1, [] :: (runRound hash st qs).2.1, (runRound hash st qs).2.2)
  | st, (l :: r) :: qs =>
      ((runRound hash (stepLine hash st l) qs).1,
        r :: (runRound hash (stepLine hash st l) qs).2.1, true)

/-- The heads read in one round: the first line of every non-exhausted file. -/
def heads {α : Type} : List (List α) → List α
  | [] => []
  | [] :: qs => heads qs
  | (l :: _) :: qs => l :: heads qs

/-- The file queues left after one round. -/
def behead {α : Type} : List (List α) → List (List α)
  | [] => []
  | [] :: qs => [] :: behead qs
  | (_ :: r) :: qs => r :: behead qs

/-- Total number of unread lines across all files. -/
def sumLen {α : Type} (qs : List (List α)) : Nat := (qs.map List.length).sum

theorem runRound_state {α : Type} (hash : α → Nat) :
    ∀ (qs : List (List α)) (st : MState α),
      (runRound hash st qs).1 = (heads qs).foldl (stepLine hash) st := by
  intro qs
  induction qs with
  | nil => intro st; rfl
  | cons q qs ih =>
    intro st
    cases q with
    | nil => simp [runRound, heads, ih]
    | cons l r => simp [runRound, heads, ih]

theorem runRound_queues {α : Type} (hash : α → Nat) :
    ∀ (qs : List (List α)) (st : MState α), (runRound hash st qs).2.1 = behead qs := by
  intro qs
  induction qs with
  | nil => intro st; rfl
  | cons q qs ih =>
    intro st
    cases q with
    | nil => simp [runRound, behead, ih]
    | cons l r => simp [runRound, behead, ih]

theorem runRound_alive_iff {α : Type} (hash : α → Nat) :
    ∀ (qs : List (List α)) (st : MState α),
      ((runRound hash st qs).2.2 = true ↔ heads qs ≠ []) := by
  intro qs
  induction qs with
  | nil => intro st; simp [runRound, heads]
  | cons q qs ih =>
    intro st
    cases q with
    | nil => simp [runRound, heads, ih]
    | cons l r => simp [runRound, heads]

theorem sumLen_behead_le {α : Type} : ∀ qs : List (List α), sumLen (behead qs) ≤ sumLen qs := by
  intro qs
  induction qs with
  | nil => simp [behead]
  | cons q qs ih =>
    cases q with
    | nil => simpa [behead, sumLen] using ih
    | cons l r =>
      simp only [behead, sumLen, List.map_cons, List.sum_cons, List.length_cons] at ih ⊢
      omega

theorem sumLen_behead_lt {α : Type} :
    ∀ qs : List (List α), heads qs ≠ [] → sumLen (behead qs) < sumLen qs := by
  intro qs
  induction qs with
  | nil => intro h; simp [heads] at h
  | cons q qs ih =>
    intro h
    cases q with
    | nil =>
      simp only [heads] at h
      simpa [behead, sumLen] using ih h
    | cons l r =>
      have := sumLen_behead_le (α := α) qs
      simp only [behead, sumLen, List.map_cons, List.sum_cons, List.length_cons] at this ⊢
      omega

theorem runRound_sumLen {α : Type} (hash : α → Nat) (st : MState α) (qs : List (List α))
    (h : (runRound hash st qs).2.2 = true) :
    sumLen (runRound hash st qs).2.1 < sumLen qs := by
  rw [runRound_queues]
  exact sumLen_behead_lt qs ((runRound_alive_iff hash qs st).mp h)

/-- The `while (anyAlive)` loop of `weaveMergeDedup` (source lines 116-147). -/
def mergeLoop {α : Type} (hash : α → Nat) (st : MState α) (qs : List (List α)) : MState α :=
  if h : (runRound hash st qs).2.2 = true then
    mergeLoop hash (runRound hash st qs).1 (runRound hash st qs).2.1
  else (runRound hash st qs).1
termination_by sumLen qs
decreasing_by exact runRound_sumLen hash st qs h

/-- The whole merge over the files that opened successfully, starting from an
empty seen-set and an empty output. -/
def weaveMerge {α : Type} (hash : α → Nat) (files : List (List α)) : MState α :=
  mergeLoop hash ⟨[], []⟩ files

/-! ## Round-robin schedule: the order in which the merge loop considers lines.

`schedule` is a re-formulation of the loop used for reasoning: the merge visits
the heads of all still-alive files (in fixed file order), then recurses on the
beheaded queues.  `mergeLoop_eq_foldl` proves the loop equal to a fold of
`stepLine` over this schedule. -/

def schedule {α : Type} (qs : List (List α)) : List α :=
  match h : heads qs with
  | [] => []
  | x :: t => (x :: t) ++ schedule (behead qs)
termination_by sumLen qs
decreasing_by exact sumLen_behead_lt qs (by rw [h]; exact List.cons_ne_nil x t)

theorem schedule_of_heads_nil {α : Type} (qs : List (List α)) (h : heads qs = []) :
    schedule qs = [] := by
  rw [schedule, h]

theorem schedule_of_heads_cons {α : Type} (qs : List (List α)) (x : α) (t : List α)
    (h : heads qs = x :: t) : schedule qs = (x :: t) ++ schedule (behead qs) := by
  rw [schedule, h]

theorem mergeLoop_eq_foldl_aux {α : Type} (hash : α → Nat) :
    ∀ (n : Nat) (qs : List (List α)) (st : MState α), sumLen qs ≤ n →
      mergeLoop hash st qs = (schedule qs).foldl (stepLine hash) st := by
  intro n
  induction n with
  | zero =>
    intro qs st hle
    have hh : heads qs = [] := by
      by_contra hne
      have hx : heads qs ≠ [] := hne
      have := sumLen_behead_lt qs hx
      omega
    rw [mergeLoop]
    rw [dif_neg (by rw [runRound_alive_iff]; simpa using hh)]
    rw [runRound_state, hh, schedule_of_heads_nil qs hh]
  | succ n ih =>
    intro qs st hle
    cases hh : heads qs with
    | nil =>
      rw [mergeLoop]
      rw [dif_neg (by rw [runRound_alive_iff]; simpa using hh)]
      rw [runRound_state, hh, schedule_of_heads_nil qs hh]
    | cons x t =>
      have halive : (runRound hash st qs).2.2 = true := by
        rw [runRound_alive_iff, hh]; exact List.cons_ne_nil x t
      rw [mergeLoop, dif_pos halive, runRound_state, runRound_queues]
      have hlt : sumLen (behead qs) < sumLen qs :=
        sumLen_behead_lt qs (by rw [hh]; exact List.cons_ne_nil x t)
      rw [ih (behead qs) _ (by omega)]
      rw [schedule_of_heads_cons qs x t hh, List.foldl_append, hh]

theorem weaveMerge_eq_foldl {α : Type} (hash : α → Nat) (files : List (List α)) :
    weaveMerge hash files = (schedule files).foldl (stepLine hash) ⟨[], []⟩ :=
  mergeLoop_eq_foldl_aux hash (sumLen files) files ⟨[], []⟩ (Nat.le_refl _)

/-! ## Fine-grained trace of the merge run (for the SeenSet invariants). -/

/-- The sequence of merge states visited while folding `stepLine` over a list of
scheduled lines, starting from `st` (first element is `st` itself). -/
def statesFrom {α : Type} (hash : α → Nat) (st : MState α) : List α → List (MState α)
  | [] => [st]
  | l :: ls => st :: statesFrom hash (stepLine hash st l) ls

/-- All intermediate states of one merge run, in processing order. -/
def mergeTrace {α : Type} (hash : α → Nat) (files : List (List α)) : List (MState α) :=
  statesFrom hash ⟨[], []⟩ (schedule files)

theorem statesFrom_head {α : Type} (hash : α → Nat) (st : MState α) (ls : List α) :
    (statesFrom hash st ls)[0]? = some st := by
  cases ls <;> simp [statesFrom]

theorem statesFrom_get_succ {α : Type} (hash : α → Nat) :
    ∀ (ls : List α) (st : MState α) (i : Nat) (l : α), ls[i]? = some l →
      ∃ s : MState α, (statesFrom hash st ls)[i]? = some s ∧
        (statesFrom hash st ls)[i + 1]? = some (stepLine hash s l) := by
  intro ls
  induction ls with
  | nil => intro st i l h; simp at h
  | cons x ls ih =>
    intro st i l h
    cases i with
    | zero =>
      have hx : x = l := by simpa using h
      subst hx
      refine ⟨st, ?_, ?_⟩
      · simp [statesFrom]
      · simpa [statesFrom] using statesFrom_head hash (stepLine hash st x) ls
    | succ i =>
      simp only [List.getElem?_cons_succ] at h
      obtain ⟨s, h1, h2⟩ := ih (stepLine hash st x) i l h
      exact ⟨s, by simpa [statesFrom] using h1, by simpa [statesFrom] using h2⟩

/-! ## Line reading: `std::getline` semantics over raw file content. -/

/-- One `std::getline` call on the remaining stream content: the line read (text
up to and excluding the next newline, or end of data) and the content left after
the consumed delimiter. -/
def getlineM : List Char → List Char × List Char
  | [] => ([], [])
  | c :: cs => if c = '\n' then ([], cs) else (c :: (getlineM cs).1, (getlineM cs).2)

theorem getlineM_snd_le : ∀ cs : List Char, (getlineM cs).2.length ≤ cs.length := by
  intro cs
  induction cs with
  | nil => simp [getlineM]
  | cons c cs ih =>
    simp only [getlineM]
    split
    · simp
    · simpa using Nat.le_succ_of_le ih

/-- The sequence of lines `getline` yields from a file's byte content: a read at
end-of-data with no characters extracted fails (so a file ending in a newline
yields no extra empty line), while a nonempty final line without a terminating
newline is still returned. -/
def linesOf (cs : List Char) : List (List Char) :=
  match cs with
  | [] => []
  | c :: rest => (getlineM (c :: rest)).1 :: linesOf (getlineM (c :: rest)).2
termination_by cs.length
decreasing_by
  simp only [getlineM]
  split
  · simp
  · simp only [List.length_cons]
    exact Nat.lt_succ_of_le (getlineM_snd_le _)

/-- Merge of a list of file contents (the lines of each file, round-robin,
deduplicated by hash). -/
def weaveContents (hash : List Char → Nat) (contents : List (List Char)) : MState (List Char) :=
  weaveMerge hash (contents.map linesOf)

/-! ## Pattern expansion (source lines 41-85) over an abstract filesystem. -/

/-- Abstract filesystem and stream environment seen by the program.
`dirEntries d` lists the names of the immediate entries of directory `d` in
filesystem iteration order; `canOpen` tells whether a resolved file can be
opened for reading at merge time; `outOpens` whether the output sink can be
created. -/
structure Env where
  existsPath : String → Bool
  isRegular : String → Bool
  isDirectory : String → Bool
  dirEntries : String → List String
  canOpen : String → Bool
  content : String → List Char
  outOpens : String → Bool

/-- Index of the last '/' in a path, if any (models the `fs::path` split into
`parent_path()` and `filename()` for '/'-separated paths). -/
def lastSlashIdx : List Char → Option Nat
  | [] => none
  | c :: cs =>
    match lastSlashIdx cs with
    | some i => some (i + 1)
    | none => if c = '/' then some 0 else none

def splitPath (p : String) : String × String :=
  match lastSlashIdx p.data with
  | none => ("", p)
  | some i => (⟨p.data.take i⟩, ⟨p.data.drop (i + 1)⟩)

def joinPath (d n : String) : String := d ++ "/" ++ n

/-- `pattern.find('*') != npos || pattern.find('?') != npos`. -/
def hasWildcard (p : String) : Bool := p.data.contains '*' || p.data.contains '?'

def warnNoFile (p : String) : String :=
  "Warning: File not found or not a regular file: " ++ p

def warnNoDir (p : String) : String :=
  "Warning: Directory not found for pattern: " ++ p

/-- Expansion of a single pattern (one iteration of the loop of
`expandFilePaths`, source lines 44-84): the files contributed, and the warnings
emitted on `cerr`. -/
def expandPattern (env : Env) (p : String) : List String × List String :=
  if hasWildcard p then
    let parent0 := (splitPath p).1
    let filename := (splitPath p).2
    let parent := if parent0 = "" then "." else parent0
    if env.existsPath parent && env.isDirectory parent then
      (((env.dirEntries parent).filter
          (fun n => env.isRegular (joinPath parent n) && wildcardMatch n filename)).map
        (fun n => joinPath parent n), [])
    else ([], [warnNoDir p])
  else if env.existsPath p && env.isRegular p then ([p], [])
  else ([], [warnNoFile p])

/-- `static vector<string> expandFilePaths(const vector<string>& patterns)`,
with the `cerr` warnings collected into the second component. -/
def expandFilePaths (env : Env) (patterns : List String) : List String × List String :=
  patterns.foldl
    (fun acc p => (acc.1 ++ (expandPattern env p).1, acc.2 ++ (expandPattern env p).2))
    ([], [])

/-! ## `main` (source lines 153-222). -/

/-- The argument loop of `main` (source lines 169-182).  `none` models the fatal
"Error: -o, --output requires a filename" usage error; otherwise the final
output path and the collected patterns, in order. -/
def parseArgsLoop : List String → String → List String → Option (String × List String)
  | [], outF, pats => some (outF, pats)
  | a :: rest, outF, pats =>
    if a = "-o" ∨ a = "--output" then
      match rest with
      | [] => none
      | v :: rest' => parseArgsLoop rest' v pats
    else parseArgsLoop rest outF (pats ++ [a])

/-- `weaveMergeDedup` including its file-opening prologue (source lines 88-114):
files that fail to open are dropped (in order); `none` models the early `return`
after printing "Error: No files could be opened for weave-merge" — note the
function is `void`, so this early return is invisible to `main`. -/
def weaveMergeDedupModel (hash : List Char → Nat) (env : Env) (paths : List String) :
    Option (MState (List Char)) :=
  let opened := paths.filter (fun p => env.canOpen p)
  if opened = [] then none
  else some (weaveMerge hash (opened.map (fun p => linesOf (env.content p))))

/-- The control flow of `main` (source lines 153-222), with `argv` split into
its tail `args`: returns the process exit code and, when the output file was
created, the sequence of lines written to it (`none` = output never created). -/
def mainModel (hash : List Char → Nat) (env : Env) (args : List String) :
    Nat × Option (List (List Char)) :=
  if args = [] then (1, none)
  else
    match parseArgsLoop args "merged.txt" [] with
    | none => (1, none)
    | some (outF, pats) =>
      if pats = [] then (1, none)
      else if (expandFilePaths env pats).1 = [] then (1, none)
      else if env.outOpens outF = false then (1, none)
      else
        match weaveMergeDedupModel hash env (expandFilePaths env pats).1 with
        | none => (0, some [])
        | some st => (0, some st.out)


/-! ## Helper lemmas about the merge fold. -/

theorem stepLine_idem {α : Type} (hash : α → Nat) (st : MState α) (l : α) :
    stepLine hash (stepLine hash st l) l = stepLine hash st l := by
  by_cases hm : hash l ∈ st.seen
  · simp [stepLine, hm]
  · simp [stepLine, hm]

/-- Each element doubled in place: the schedule produced by merging a file with
an identical copy of itself. -/
def dup {α : Type} : List α → List α
  | [] => []
  | l :: r => l :: l :: dup r

theorem schedule_single {α : Type} : ∀ f : List α, schedule [f] = f := by
  intro f
  induction f with
  | nil => exact schedule_of_heads_nil [[]] rfl
  | cons l r ih =>
    rw [schedule_of_heads_cons [l :: r] l [] rfl]
    show [l] ++ schedule [r] = l :: r
    simp [ih]

theorem schedule_pair {α : Type} : ∀ f : List α, schedule [f, f] = dup f := by
  intro f
  induction f with
  | nil => exact schedule_of_heads_nil [[], []] rfl
  | cons l r ih =>
    rw [schedule_of_heads_cons [l :: r, l :: r] l [l] rfl]
    show [l, l] ++ schedule [r, r] = dup (l :: r)
    simp [dup, ih]

theorem foldl_dup {α : Type} (hash : α → Nat) :
    ∀ (f : List α) (st : MState α),
      (dup f).foldl (stepLine hash) st = f.foldl (stepLine hash) st := by
  intro f
  induction f with
  | nil => intro st; rfl
  | cons l r ih =>
    intro st
    simp only [dup, List.foldl_cons, stepLine_idem]
    exact ih _

theorem foldl_seen_length_out {α : Type} (hash : α → Nat) :
    ∀ (ls : List α) (st : MState α), st.seen.length = st.out.length →
      ((ls.foldl (stepLine hash) st).seen.length = (ls.foldl (stepLine hash) st).out.length) := by
  intro ls
  induction ls with
  | nil => intro st h; simpa using h
  | cons l ls ih =>
    intro st h
    simp only [List.foldl_cons]
    apply ih
    by_cases hm : hash l ∈ st.seen
    · simpa [stepLine, hm] using h
    · simp [stepLine, hm, List.length_append, h]

theorem mem_foldl_seen {α : Type} (hash : α → Nat) :
    ∀ (ls : List α) (st : MState α) (a : Nat),
      (a ∈ (ls.foldl (stepLine hash) st).seen ↔ a ∈ st.seen ∨ a ∈ ls.map hash) := by
  intro ls
  induction ls with
  | nil => intro st a; simp
  | cons l ls ih =>
    intro st a
    simp only [List.foldl_cons, List.map_cons, List.mem_cons]
    rw [ih]
    by_cases hm : hash l ∈ st.seen
    · simp only [stepLine, if_pos hm]
      constructor
      · exact fun x => x.elim (fun hs => Or.inl hs) (fun hmap => Or.inr (Or.inr hmap))
      · rintro (hs | heq | hmap)
        · exact Or.inl hs
        · exact Or.inl (heq ▸ hm)
        · exact Or.inr hmap
    · simp only [stepLine, if_neg hm, List.mem_cons]
      tauto

theorem foldl_seen_nodup {α : Type} (hash : α → Nat) :
    ∀ (ls : List α) (st : MState α), st.seen.Nodup → (ls.foldl (stepLine hash) st).seen.Nodup := by
  intro ls
  induction ls with
  | nil => intro st h; simpa using h
  | cons l ls ih =>
    intro st h
    simp only [List.foldl_cons]
    apply ih
    by_cases hm : hash l ∈ st.seen
    · simpa [stepLine, hm] using h
    · simp only [stepLine, if_neg hm]
      exact List.nodup_cons.mpr ⟨hm, h⟩

theorem flatten_eq_nil_of_heads_nil {α : Type} :
    ∀ qs : List (List α), heads qs = [] → qs.flatten = [] := by
  intro qs
  induction qs with
  | nil => intro h; rfl
  | cons q qs ih =>
    intro h
    cases q with
    | nil => simpa [heads, List.flatten_cons] using ih (by simpa [heads] using h)
    | cons l r => simp [heads] at h

theorem heads_behead_flatten_perm {α : Type} :
    ∀ qs : List (List α), List.Perm (heads qs ++ (behead qs).flatten) qs.flatten := by
  intro qs
  induction qs with
  | nil => simp [heads, behead]
  | cons q qs ih =>
    cases q with
    | nil => simpa [heads, behead, List.flatten_cons] using ih
    | cons l r =>
      simp only [heads, behead, List.flatten_cons, List.cons_append]
      refine List.Perm.cons l ?_
      have e1 : heads qs ++ (r ++ (behead qs).flatten)
          = (heads qs ++ r) ++ (behead qs).flatten := (List.append_assoc _ _ _).symm
      have p1 : List.Perm ((heads qs ++ r) ++ (behead qs).flatten)
          ((r ++ heads qs) ++ (behead qs).flatten) :=
        List.Perm.append_right _ List.perm_append_comm
      have e2p : List.Perm ((r ++ heads qs) ++ (behead qs).flatten)
          (r ++ (heads qs ++ (behead qs).flatten)) := by
        rw [List.append_assoc]
      have p2 : List.Perm (r ++ (heads qs ++ (behead qs).flatten)) (r ++ qs.flatten) :=
        List.Perm.append_left r ih
      rw [e1]
      exact (p1.trans e2p).trans p2

theorem schedule_perm_flatten_aux {α : Type} :
    ∀ (n : Nat) (qs : List (List α)), sumLen qs ≤ n → List.Perm (schedule qs) qs.flatten := by
  intro n
  induction n with
  | zero =>
    intro qs hle
    have hh : heads qs = [] := by
      by_contra hne
      have := sumLen_behead_lt qs hne
      omega
    rw [schedule_of_heads_nil _ hh, flatten_eq_nil_of_heads_nil _ hh]
  | succ n ih =>
    intro qs hle
    cases hh : heads qs with
    | nil => rw [schedule_of_heads_nil _ hh, flatten_eq_nil_of_heads_nil _ hh]
    | cons x t =>
      rw [schedule_of_heads_cons _ x t hh]
      have hlt := sumLen_behead_lt qs (by rw [hh]; exact List.cons_ne_nil x t)
      have p1 : List.Perm ((x :: t) ++ schedule (behead qs))
          ((x :: t) ++ (behead qs).flatten) :=
        List.Perm.append_left _ (ih (behead qs) (by omega))
      have p2 : List.Perm (heads qs ++ (behead qs).flatten) qs.flatten :=
        heads_behead_flatten_perm qs
      rw [hh] at p2
      exact p1.trans p2

theorem schedule_perm_flatten {α : Type} (qs : List (List α)) :
    List.Perm (schedule qs) qs.flatten :=
  schedule_perm_flatten_aux (sumLen qs) qs (Nat.le_refl _)

/-! ## Helper lemmas about `getline` semantics. -/

theorem getlineM_of_no_newline : ∀ l : List Char, '\n' ∉ l → getlineM l = (l, []) := by
  intro l
  induction l with
  | nil => intro h; rfl
  | cons c cs ih =>
    intro h
    simp only [List.mem_cons, not_or] at h
    simp only [getlineM, List.append_eq]
    rw [if_neg (fun hh : c = '\n' => h.1 hh.symm), ih h.2]

theorem getlineM_line_append : ∀ s r : List Char, '\n' ∉ s →
    getlineM (s ++ '\n' :: r) = (s, r) := by
  intro s
  induction s with
  | nil => intro r h; simp [getlineM]
  | cons c cs ih =>
    intro r h
    simp only [List.mem_cons, not_or] at h
    simp only [List.cons_append, getlineM, List.append_eq]
    rw [if_neg (fun hh : c = '\n' => h.1 hh.symm), ih r h.2]

theorem linesOf_cons_line : ∀ s r : List Char, '\n' ∉ s →
    linesOf (s ++ '\n' :: r) = s :: linesOf r := by
  intro s r hs
  cases s with
  | nil =>
    simp only [List.nil_append, linesOf]
    simp [getlineM]
  | cons c cs =>
    simp only [List.cons_append, linesOf]
    have h := getlineM_line_append (c :: cs) r hs
    simp only [List.cons_append] at h
    rw [h]

theorem linesOf_of_no_newline : ∀ l : List Char, l ≠ [] → '\n' ∉ l → linesOf l = [l] := by
  intro l hne hnl
  cases l with
  | nil => exact absurd rfl hne
  | cons c cs =>
    simp only [linesOf]
    rw [getlineM_of_no_newline _ hnl]
    simp [linesOf]

theorem linesOf_flat_terminated :
    ∀ ls : List (List Char), (∀ s ∈ ls, '\n' ∉ s) →
      linesOf ((ls.map (fun s => s ++ ['\n'])).flatten) = ls := by
  intro ls
  induction ls with
  | nil => intro h; simp [linesOf]
  | cons s ls ih =>
    intro h
    have hs : '\n' ∉ s := h s (List.mem_cons_self s ls)
    have hls : ∀ x ∈ ls, '\n' ∉ x := fun x hx => h x (List.mem_cons_of_mem s hx)
    simp only [List.map_cons, List.flatten_cons]
    have heq : (s ++ ['\n']) ++ (ls.map (fun s => s ++ ['\n'])).flatten
        = s ++ '\n' :: (ls.map (fun s => s ++ ['\n'])).flatten := by simp
    rw [heq, linesOf_cons_line _ _ hs, ih hls]

theorem linesOf_flat_final :
    ∀ (ls : List (List Char)) (l : List Char), (∀ s ∈ ls, '\n' ∉ s) → l ≠ [] → '\n' ∉ l →
      linesOf ((ls.map (fun s => s ++ ['\n'])).flatten ++ l) = ls ++ [l] := by
  intro ls
  induction ls with
  | nil =>
    intro l hls hne hnl
    simpa using linesOf_of_no_newline l hne hnl
  | cons s ls ih =>
    intro l hls hne hnl
    have hs : '\n' ∉ s := hls s (List.mem_cons_self s ls)
    have hls' : ∀ x ∈ ls, '\n' ∉ x := fun x hx => hls x (List.mem_cons_of_mem s hx)
    simp only [List.map_cons, List.flatten_cons]
    have heq : ((s ++ ['\n']) ++ (ls.map (fun s => s ++ ['\n'])).flatten) ++ l
        = s ++ '\n' :: ((ls.map (fun s => s ++ ['\n'])).flatten ++ l) := by simp
    rw [heq, linesOf_cons_line _ _ hs, ih l hls' hne hnl]
    rfl

/-! ## Helper lemmas about pattern expansion. -/

theorem expandFilePaths_foldl_acc (env : Env) :
    ∀ (ps : List String) (a b : List String),
      ps.foldl
        (fun acc p => (acc.1 ++ (expandPattern env p).1, acc.2 ++ (expandPattern env p).2))
        (a, b)
      = (a ++ (expandFilePaths env ps).1, b ++ (expandFilePaths env ps).2) := by
  intro ps
  induction ps with
  | nil => intro a b; simp [expandFilePaths]
  | cons p ps ih =>
    intro a b
    simp only [List.foldl_cons]
    rw [ih]
    have h2 : expandFilePaths env (p :: ps)
        = ((expandPattern env p).1 ++ (expandFilePaths env ps).1,
            (expandPattern env p).2 ++ (expandFilePaths env ps).2) := by
      simp only [expandFilePaths, List.foldl_cons, List.nil_append]
      exact ih _ _
    rw [h2]
    simp [List.append_assoc]

theorem expandFilePaths_cons (env : Env) (p : String) (ps : List String) :
    expandFilePaths env (p :: ps)
      = ((expandPattern env p).1 ++ (expandFilePaths env ps).1,
          (expandPattern env p).2 ++ (expandFilePaths env ps).2) := by
  simp only [expandFilePaths, List.foldl_cons, List.nil_append]
  exact expandFilePaths_foldl_acc env ps _ _

theorem expandFilePaths_append (env : Env) :
    ∀ xs ys : List String,
      expandFilePaths env (xs ++ ys)
        = ((expandFilePaths env xs).1 ++ (expandFilePaths env ys).1,
            (expandFilePaths env xs).2 ++ (expandFilePaths env ys).2) := by
  intro xs
  induction xs with
  | nil => intro ys; simp [expandFilePaths]
  | cons p xs ih =>
    intro ys
    rw [List.cons_append, expandFilePaths_cons, ih, expandFilePaths_cons]
    simp [List.append_assoc]

/-! ## Concrete environments used in closed evaluations. -/

/-- A filesystem where the literal path "f" exists as a regular file but cannot
be opened for reading, and the output sink opens fine. -/
def envNoOpen : Env :=
  ⟨fun p => p == "f", fun p => p == "f", fun _ => false, fun _ => [], fun _ => false,
    fun _ => [], fun _ => true⟩

/-- A filesystem where only the literal path "a" exists as a regular file. -/
def envLit : Env :=
  ⟨fun p => p == "a", fun p => p == "a", fun _ => false, fun _ => [], fun _ => false,
    fun _ => [], fun _ => true⟩

/-! ## Claims. -/

/-- C1: the code evaluated at the failing input.  The pattern "f" resolves (it
exists and is a regular file) but the file cannot be opened at merge time, so
the active set is empty; `weaveMergeDedup` reports its error and returns, but —
contrary to the claim — `main` still returns exit code 0 and the (empty) output
file has been created, with "Output written to:" printed. -/
theorem c1_zero_opened_exit_code :
    mainModel (fun _ => 0) envNoOpen ["f"] = (0, some []) := by decide

/-- C2: round-robin order.  For files A = [a1, a2] and B = [b1, b2, b3] whose
lines have pairwise distinct hashes (the source's rendering of "no duplicate
lines", dedup being by hash), the merge emits exactly a1, b1, a2, b2, b3. -/
theorem c2_round_robin_order {α : Type} (hash : α → Nat) (a1 a2 b1 b2 b3 : α)
    (h : ([a1, a2, b1, b2, b3].map hash).Nodup) :
    (weaveMerge hash [[a1, a2], [b1, b2, b3]]).out = [a1, b1, a2, b2, b3] := by
  rw [weaveMerge_eq_foldl]
  have hs : schedule [[a1, a2], [b1, b2, b3]] = [a1, b1, a2, b2, b3] := by
    simp [schedule, heads, behead]
  rw [hs]
  simp only [List.map_cons, List.map_nil, List.nodup_cons, List.mem_cons, List.mem_singleton,
    List.not_mem_nil, or_false, not_or, List.nodup_nil, and_true] at h
  obtain ⟨⟨h12, h13, h14, h15⟩, ⟨h23, h24, h25⟩, ⟨h34, h35⟩, h45, -⟩ := h
  simp [stepLine, List.foldl_cons, h12, h13, h14, h15, h23, h24, h25, h34, h35, h45,
    Ne.symm h12, Ne.symm h13, Ne.symm h14, Ne.symm h15, Ne.symm h23, Ne.symm h24,
    Ne.symm h25, Ne.symm h34, Ne.symm h35, Ne.symm h45]

/-- C2 witness: concrete instantiation with the identity hash on 0..4. -/
theorem c2_round_robin_order_witness :
    (([0, 1, 2, 3, 4].map (fun n : Nat => n)).Nodup) ∧
    (weaveMerge (fun n : Nat => n) [[0, 1], [2, 3, 4]]).out = [0, 2, 1, 3, 4] :=
  ⟨by decide, c2_round_robin_order (fun n => n) 0 1 2 3 4 (by decide)⟩

/-- C3: cross-file dedup.  For A = [x, y] and B = [x, z] with x, y, z of
pairwise distinct hashes, the merge emits exactly x, y, z: B's copy of x is
suppressed because A's x was written first in round 1. -/
theorem c3_cross_file_dedup {α : Type} (hash : α → Nat) (x y z : α)
    (h : ([x, y, z].map hash).Nodup) :
    (weaveMerge hash [[x, y], [x, z]]).out = [x, y, z] := by
  rw [weaveMerge_eq_foldl]
  have hs : schedule [[x, y], [x, z]] = [x, x, y, z] := by
    simp [schedule, heads, behead]
  rw [hs]
  simp only [List.map_cons, List.map_nil, List.nodup_cons, List.mem_cons, List.mem_singleton,
    List.not_mem_nil, or_false, not_or, List.nodup_nil, and_true] at h
  obtain ⟨⟨hxy, hxz⟩, hyz, -⟩ := h
  simp [stepLine, List.foldl_cons, hxy, hxz, hyz,
    Ne.symm hxy, Ne.symm hxz, Ne.symm hyz]

/-- C3 witness: concrete instantiation with the identity hash on 0, 1, 2. -/
theorem c3_cross_file_dedup_witness :
    (([0, 1, 2].map (fun n : Nat => n)).Nodup) ∧
    (weaveMerge (fun n : Nat => n) [[0, 1], [0, 2]]).out = [0, 1, 2] :=
  ⟨by decide, c3_cross_file_dedup (fun n => n) 0 1 2 (by decide)⟩

/-- C4: dedup idempotence.  For every file f and every hash function, merging
f woven with an identical copy of itself writes exactly the same output as
merging f alone. -/
theorem c4_dedup_idempotent {α : Type} (hash : α → Nat) (f : List α) :
    (weaveMerge hash [f, f]).out = (weaveMerge hash [f]).out := by
  rw [weaveMerge_eq_foldl, weaveMerge_eq_foldl, schedule_pair, schedule_single, foldl_dup]

/-- C5: SeenSet invariants.  At every step of a merge run's trace the set of
seen hashes only grows, and the output grows exactly when the processed line's
hash was absent at the moment of the write decision — in which case the hash is
inserted at that same step; when the output does not grow, the hash was already
present and the seen set is unchanged. -/
theorem c5_seen_set_invariants {α : Type} (hash : α → Nat) (files : List (List α))
    (i : Nat) (l : α) (hl : (schedule files)[i]? = some l) :
    ∃ s s' : MState α,
      (mergeTrace hash files)[i]? = some s ∧
      (mergeTrace hash files)[i + 1]? = some s' ∧
      (∀ a, a ∈ s.seen → a ∈ s'.seen) ∧
      (s'.out ≠ s.out →
        hash l ∉ s.seen ∧ s'.seen = hash l :: s.seen ∧ s'.out = s.out ++ [l]) ∧
      (s'.out = s.out → hash l ∈ s.seen ∧ s'.seen = s.seen) := by
  obtain ⟨s, h1, h2⟩ := statesFrom_get_succ hash (schedule files) ⟨[], []⟩ i l hl
  refine ⟨s, stepLine hash s l, h1, h2, ?_, ?_, ?_⟩
  · intro a ha
    by_cases hm : hash l ∈ s.seen
    · simpa [stepLine, hm] using ha
    · simp only [stepLine, if_neg hm, List.mem_cons]
      exact Or.inr ha
  · intro hne
    by_cases hm : hash l ∈ s.seen
    · exact absurd (show (stepLine hash s l).out = s.out by simp [stepLine, hm]) hne
    · refine ⟨hm, ?_, ?_⟩ <;> simp [stepLine, hm]
  · intro heq
    by_cases hm : hash l ∈ s.seen
    · exact ⟨hm, by simp [stepLine, hm]⟩
    · exfalso
      simp only [stepLine, if_neg hm] at heq
      simpa using congrArg List.length heq

/-- C5 witness: the second step of merging [[5], [5]] processes the duplicate 5. -/
theorem c5_seen_set_invariants_witness :
    ((schedule ([[5], [5]] : List (List Nat)))[1]? = some 5) ∧
    (∃ s s' : MState Nat,
      (mergeTrace (fun n : Nat => n) [[5], [5]])[1]? = some s ∧
      (mergeTrace (fun n : Nat => n) [[5], [5]])[2]? = some s' ∧
      (∀ a, a ∈ s.seen → a ∈ s'.seen) ∧
      (s'.out ≠ s.out →
        (fun n : Nat => n) 5 ∉ s.seen ∧ s'.seen = (fun n : Nat => n) 5 :: s.seen ∧
          s'.out = s.out ++ [5]) ∧
      (s'.out = s.out → (fun n : Nat => n) 5 ∈ s.seen ∧ s'.seen = s.seen)) := by
  have hs : (schedule ([[5], [5]] : List (List Nat)))[1]? = some 5 := by
    simp [schedule, heads, behead]
  exact ⟨hs, c5_seen_set_invariants (fun n => n) [[5], [5]] 1 5 hs⟩

/-- C6: full-match glob semantics on the spec's examples, failure when either
the pattern or the candidate is left unconsumed, and trailing stars as no-ops. -/
theorem c6_wildcard_full_match :
    wildcardMatch "a.txt" "*.txt" = true ∧
    wildcardMatch "a.txt.bak" "*.txt" = false ∧
    wildcardMatch "file1.txt" "file?.txt" = true ∧
    wildcardMatch "file12.txt" "file?.txt" = false ∧
    wildcardMatch "file.txt" "file?.txt" = false ∧
    wildcardMatch "a.txt" "a.txt***" = true ∧
    wildcardMatch "a.txt" "a.tx" = false ∧
    wildcardMatch "a.tx" "a.txt" = false := by
  refine ⟨?_, ?_, ?_, ?_, ?_, ?_, ?_, ?_⟩ <;>
    simp +decide [wildcardMatch, wmLoop, skipStars]

/-- C7: merging files with M total unique lines (M counted after
deduplication, with distinct lines hashing distinctly per the injectivity
hypothesis) writes exactly M output lines, and re-running the pure merge on the
same inputs yields the same result. -/
theorem c7_unique_line_count {α : Type} [DecidableEq α] (hash : α → Nat)
    (files : List (List α)) (hinj : Function.Injective hash) :
    (weaveMerge hash files).out.length = files.flatten.dedup.length ∧
    weaveMerge hash files = weaveMerge hash files := by
  refine ⟨?_, rfl⟩
  rw [weaveMerge_eq_foldl]
  have h1 := foldl_seen_length_out hash (schedule files) ⟨[], []⟩ rfl
  rw [← h1]
  have hnd : ((schedule files).foldl (stepLine hash) ⟨[], []⟩).seen.Nodup :=
    foldl_seen_nodup hash (schedule files) ⟨[], []⟩ List.nodup_nil
  have hperm : List.Perm ((schedule files).foldl (stepLine hash) ⟨[], []⟩).seen
      ((schedule files).map hash).dedup := by
    rw [List.perm_ext_iff_of_nodup hnd (List.nodup_dedup _)]
    intro a
    rw [List.mem_dedup, mem_foldl_seen]
    simp
  rw [hperm.length_eq]
  have hp2 : List.Perm ((schedule files).map hash) (files.flatten.map hash) :=
    (schedule_perm_flatten files).map hash
  rw [hp2.dedup.length_eq, List.dedup_map_of_injective hinj]
  simp

/-- C7 witness: two files with four lines, three distinct, identity hash. -/
theorem c7_unique_line_count_witness :
    Function.Injective (fun n : Nat => n) ∧
    ((weaveMerge (fun n : Nat => n) [[0, 1], [1, 2]]).out.length
        = ([[0, 1], [1, 2]] : List (List Nat)).flatten.dedup.length ∧
      weaveMerge (fun n : Nat => n) [[0, 1], [1, 2]]
        = weaveMerge (fun n : Nat => n) [[0, 1], [1, 2]]) :=
  ⟨fun a b h => h, c7_unique_line_count (fun n => n) [[0, 1], [1, 2]] (fun a b h => h)⟩

/-- C8: a wildcard-free pattern anywhere in the pattern list contributes itself
exactly when it names an existing regular file, and otherwise contributes
nothing but a non-fatal warning; the other patterns' contributions are kept
either way (expansion is a total function: it cannot throw or abort). -/
theorem c8_literal_pattern_expansion (env : Env) (pre post : List String) (p : String)
    (h : hasWildcard p = false) :
    (expandFilePaths env (pre ++ p :: post)).1
      = (expandFilePaths env pre).1
        ++ (if env.existsPath p && env.isRegular p then [p] else [])
        ++ (expandFilePaths env post).1 ∧
    (expandFilePaths env (pre ++ p :: post)).2
      = (expandFilePaths env pre).2
        ++ (if env.existsPath p && env.isRegular p then [] else [warnNoFile p])
        ++ (expandFilePaths env post).2 := by
  rw [expandFilePaths_append env pre (p :: post), expandFilePaths_cons]
  have hp : expandPattern env p
      = if env.existsPath p && env.isRegular p then ([p], []) else ([], [warnNoFile p]) := by
    simp [expandPattern, h]
  rw [hp]
  by_cases hc : (env.existsPath p && env.isRegular p) = true
  · constructor <;> simp [hc, List.append_assoc]
  · constructor <;> simp [hc, List.append_assoc]

/-- C8 witness: the literal "a" exists in `envLit`, the literals "x" and "y" do
not. -/
theorem c8_literal_pattern_expansion_witness :
    hasWildcard "a" = false ∧
    ((expandFilePaths envLit (["x"] ++ "a" :: ["y"])).1
      = (expandFilePaths envLit ["x"]).1
        ++ (if envLit.existsPath "a" && envLit.isRegular "a" then ["a"] else [])
        ++ (expandFilePaths envLit ["y"]).1 ∧
    (expandFilePaths envLit (["x"] ++ "a" :: ["y"])).2
      = (expandFilePaths envLit ["x"]).2
        ++ (if envLit.existsPath "a" && envLit.isRegular "a" then [] else [warnNoFile "a"])
        ++ (expandFilePaths envLit ["y"]).2) :=
  ⟨by decide, c8_literal_pattern_expansion envLit ["x"] ["y"] "a" (by decide)⟩

/-- C9: every argument other than the exact strings "-o" and "--output" is
collected as a path pattern (including "--help"); an output flag consumes the
immediately following argument as the output path, even one resembling a
pattern; and with several flags the last occurrence wins. -/
theorem c9_argument_parsing :
    (∀ (a : String) (rest : List String) (outF : String) (pats : List String),
        a ≠ "-o" → a ≠ "--output" →
        parseArgsLoop (a :: rest) outF pats = parseArgsLoop rest outF (pats ++ [a])) ∧
    (∀ (a v : String) (rest : List String) (outF : String) (pats : List String),
        (a = "-o" ∨ a = "--output") →
        parseArgsLoop (a :: v :: rest) outF pats = parseArgsLoop rest v pats) ∧
    parseArgsLoop ["a", "-o", "x", "--help", "--output", "-*.txt", "b"] "merged.txt" []
      = some ("-*.txt", ["a", "--help", "b"]) := by
  refine ⟨?_, ?_, by decide⟩
  · intro a rest outF pats h1 h2
    rw [parseArgsLoop.eq_def]
    simp [h1, h2]
  · intro a v rest outF pats h
    rw [parseArgsLoop.eq_def]
    simp [h]

/-- C9 witness: "--help" is collected as a pattern; "-o" consumes a
pattern-looking successor as the output path. -/
theorem c9_argument_parsing_witness :
    ("--help" ≠ "-o" ∧ "--help" ≠ "--output") ∧
    parseArgsLoop ["--help"] "merged.txt" [] = parseArgsLoop [] "merged.txt" ["--help"] ∧
    parseArgsLoop ["-o", "-*.txt"] "merged.txt" [] = parseArgsLoop [] "-*.txt" [] := by
  refine ⟨by decide, ?_, ?_⟩
  · exact c9_argument_parsing.1 "--help" [] "merged.txt" [] (by decide) (by decide)
  · exact c9_argument_parsing.2.1 "-o" "-*.txt" [] "merged.txt" [] (Or.inl rfl)

/-- C10: a file whose final line is not newline-terminated still yields that
line from the `getline` loop, and the whole merge run treats the file exactly
as if the final newline were present — the line is hashed, deduplicated, and
(if new) written; reaching end-of-stream on that read does not discard it. -/
theorem c10_unterminated_final_line (hash : List Char → Nat) (ls : List (List Char))
    (l : List Char) (others : List (List Char))
    (h1 : l ≠ []) (h2 : '\n' ∉ l) (h3 : ∀ s ∈ ls, '\n' ∉ s) :
    linesOf ((ls.map (fun s => s ++ ['\n'])).flatten ++ l) = ls ++ [l] ∧
    weaveContents hash (((ls.map (fun s => s ++ ['\n'])).flatten ++ l) :: others)
      = weaveContents hash ((((ls ++ [l]).map (fun s => s ++ ['\n'])).flatten) :: others) := by
  have ha := linesOf_flat_final ls l h3 h1 h2
  have hterm : linesOf (((ls ++ [l]).map (fun s => s ++ ['\n'])).flatten) = ls ++ [l] := by
    apply linesOf_flat_terminated
    intro s hs
    rcases List.mem_append.mp hs with hmem | hmem
    · exact h3 s hmem
    · rw [List.mem_singleton.mp hmem]; exact h2
  refine ⟨ha, ?_⟩
  simp only [weaveContents, List.map_cons, ha, hterm]

/-- C10 witness: content "x\ny" (no trailing newline) merges like "x\ny\n". -/
theorem c10_unterminated_final_line_witness :
    ((['y'] : List Char) ≠ [] ∧ '\n' ∉ (['y'] : List Char) ∧
      ∀ s ∈ ([['x']] : List (List Char)), '\n' ∉ s) ∧
    (linesOf ((([['x']] : List (List Char)).map (fun s => s ++ ['\n'])).flatten ++ ['y'])
        = [['x']] ++ [['y']] ∧
      weaveContents (fun _ => 0)
          [(([['x']] : List (List Char)).map (fun s => s ++ ['\n'])).flatten ++ ['y']]
        = weaveContents (fun _ => 0)
            [((([['x']] ++ [['y']]) : List (List Char)).map (fun s => s ++ ['\n'])).flatten]) :=
  ⟨⟨by decide, by decide, by decide⟩,
    c10_unterminated_final_line (fun _ => 0) [['x']] ['y'] [] (by decide) (by decide)
      (by decide)⟩
